import Mathlib

/-!
Shallow embedding of `ofx::AbstractCache` from
`src/libs/ofxIO/include/ofx/AbstractCache.h`.

The cache stores `std::map<TKey, std::shared_ptr<TValue>>` and notifies a
strategy object through Poco event channels (Add, Update, Remove, Get, Clear,
IsValid, Replace).  In this embedding:

* the store `_data` is an association list `List (K × V)` with unique keys
  (the `std::map` iterator-based operations become `mfind` / `merase` /
  `mset`);
* a shared value handle `std::shared_ptr<TValue>` passed by a caller is an
  `Option V` (`none` is the null handle); handles actually stored are never
  null, so the store holds plain `V`;
* the strategy subscribed to every channel is a record of callbacks over an
  explicit strategy state `σ`;
* every `notify` both invokes the strategy callback and appends an `Event`
  to a trace, so event order and multiplicity are observable;
* each operation returns the new cache (store + strategy state), the trace
  of the notifications it fired, and its result; the mutex is dropped
  (single-threaded model);
* dereferencing a null handle (`*val` in the `shared_ptr` overloads of
  `doAdd` / `doUpdate`) is the failure point: those operations return
  `Except`, the error carrying the cache state and trace at the moment of
  failure.
-/

set_option autoImplicit false

namespace OfxCache

variable {K V σ : Type}

/-- `_data.find(key)` on the association-list store: the stored value for
`key`, if any. -/
def mfind [DecidableEq K] : List (K × V) → K → Option V
  | [], _ => none
  | (k1, v) :: rest, k => if k1 = k then some v else mfind rest k

/-- `_data.erase(it)` for the iterator found at `key`: removes the entry for
`key` (keys are unique, so removing every match equals removing the found
entry). -/
def merase [DecidableEq K] : List (K × V) → K → List (K × V)
  | [], _ => []
  | (k1, v) :: rest, k => if k1 = k then merase rest k else (k1, v) :: merase rest k

/-- `it->second = val`: replace the value stored at `key` in place, leaving
the rest of the store untouched.  No effect if `key` is absent. -/
def mset [DecidableEq K] : List (K × V) → K → V → List (K × V)
  | [], _, _ => []
  | (k1, v1) :: rest, k, v => if k1 = k then (k, v) :: rest else (k1, v1) :: mset rest k v

/-- The notifications a cache operation can fire, one constructor per event
channel of `AbstractCache` (`Add`, `Update`, `Remove`, `Get`, `Clear`,
`IsValid`, `Replace`). -/
inductive Event (K V : Type) where
  | add : K → V → Event K V
  | update : K → V → Event K V
  | remove : K → Event K V
  | get : K → Event K V
  | clear : Event K V
  | isValid : K → Event K V
  | replace : Event K V
  deriving DecidableEq, Repr

/-- Recognizes a `Replace` notification (one per replacement pass). -/
def Event.isReplace : Event K V → Bool
  | .replace => true
  | _ => false

/-- Recognizes an `Add` notification. -/
def Event.isAddEv : Event K V → Bool
  | .add _ _ => true
  | _ => false

/-- Recognizes an `Update` notification. -/
def Event.isUpdateEv : Event K V → Bool
  | .update _ _ => true
  | _ => false

/-- The strategy object `_strategy`: one callback per event channel it is
subscribed to in `initialize()`.  `onIsValid` receives the current flag of
the `Poco::ValidArgs` argument and returns the (possibly updated) flag;
`onReplace` fills the `delMe` key set, given here as the list of keys in the
set's iteration order (hence without duplicates). -/
structure Strategy (σ K V : Type) where
  onAdd : σ → K → V → σ
  onUpdate : σ → K → V → σ
  onRemove : σ → K → σ
  onGet : σ → K → σ
  onClear : σ → σ
  onIsValid : σ → K → Bool → σ × Bool
  onReplace : σ → σ × List K

/-- The cache state: the store `_data` and the strategy state. -/
structure Cache (σ K V : Type) where
  data : List (K × V)
  strat : σ
  deriving DecidableEq, Repr

/-- Modelled from the spec: the initial value of the valid flag of
`Poco::ValidArgs` (its header is not under `src/`).  The spec states
"default/no answer ⇒ treated as invalid (fails closed)", so a freshly
constructed `ValidArgs` carries `false`. -/
def validArgsDefault : Bool := false

/-- The error raised when a null value handle is dereferenced (`*val` on an
empty `std::shared_ptr`); the spec's error taxonomy names it
`InvalidValue`. -/
inductive CacheError where
  | invalidValue
  deriving DecidableEq, Repr

section Ops

variable [DecidableEq K] (S : Strategy σ K V)

/-- `doRemove(Iterator it)` called with the iterator found at `k`: if the
entry exists, notify `Remove` (the strategy's `onRemove`) and erase it;
otherwise do nothing. -/
def doRemove (c : Cache σ K V) (k : K) : Cache σ K V × List (Event K V) :=
  match mfind c.data k with
  | none => (c, [])
  | some _ => (⟨merase c.data k, S.onRemove c.strat k⟩, [Event.remove k])

/-- The eviction loop at the end of `doReplace`: for each key of `delMe` in
order, find it and `doRemove` it. -/
def removeAll : Cache σ K V → List K → Cache σ K V × List (Event K V)
  | c, [] => (c, [])
  | c, k :: ks =>
    let r := doRemove S c k
    let rest := removeAll r.1 ks
    (rest.1, r.2 ++ rest.2)

/-- `doReplace()`: notify `Replace` with an empty key set, which the
strategy's `onReplace` fills; then remove each returned key that is
present. -/
def doReplace (c : Cache σ K V) : Cache σ K V × List (Event K V) :=
  let p := S.onReplace c.strat
  let r := removeAll S ⟨c.data, p.1⟩ p.2
  (r.1, Event.replace :: r.2)

/-- `doAdd(const TKey&, const TValue&)` (by-value overload): remove any
existing entry for `k` (notifying `Remove` if present), notify `Add`, insert
the new entry, then run a replacement pass. -/
def doAdd (c : Cache σ K V) (k : K) (v : V) : Cache σ K V × List (Event K V) :=
  let r := doRemove S c k
  let s1 := S.onAdd r.1.strat k v
  let rp := doReplace S ⟨(k, v) :: r.1.data, s1⟩
  (rp.1, r.2 ++ Event.add k v :: rp.2)

/-- `doAdd(const TKey&, std::shared_ptr<TValue>&)` (handle overload): the
lookup and `doRemove` happen first; only then is the handle dereferenced to
build the `KeyValueArgs`, so a null handle fails after the removal.  On
failure the error carries the cache state and trace at that point. -/
def doAddPtr (c : Cache σ K V) (k : K) (val : Option V) :
    Except (CacheError × Cache σ K V × List (Event K V)) (Cache σ K V × List (Event K V)) :=
  let r := doRemove S c k
  match val with
  | none => .error (.invalidValue, r.1, r.2)
  | some v =>
    let s1 := S.onAdd r.1.strat k v
    let rp := doReplace S ⟨(k, v) :: r.1.data, s1⟩
    .ok (rp.1, r.2 ++ Event.add k v :: rp.2)

/-- `doUpdate(const TKey&, const TValue&)` (by-value overload): if `k` is
absent, notify `Add` and insert; if present, notify `Update` and replace the
value in place; in both cases run a replacement pass afterwards. -/
def doUpdate (c : Cache σ K V) (k : K) (v : V) : Cache σ K V × List (Event K V) :=
  match mfind c.data k with
  | none =>
    let s1 := S.onAdd c.strat k v
    let rp := doReplace S ⟨(k, v) :: c.data, s1⟩
    (rp.1, Event.add k v :: rp.2)
  | some _ =>
    let s1 := S.onUpdate c.strat k v
    let rp := doReplace S ⟨mset c.data k v, s1⟩
    (rp.1, Event.update k v :: rp.2)

/-- `doUpdate(const TKey&, std::shared_ptr<TValue>&)` (handle overload): the
handle is dereferenced to build the `KeyValueArgs` before anything else, so
a null handle fails before any mutation or notification. -/
def doUpdatePtr (c : Cache σ K V) (k : K) (val : Option V) :
    Except (CacheError × Cache σ K V × List (Event K V)) (Cache σ K V × List (Event K V)) :=
  match val with
  | none => .error (.invalidValue, c, [])
  | some v =>
    match mfind c.data k with
    | none =>
      let s1 := S.onAdd c.strat k v
      let rp := doReplace S ⟨(k, v) :: c.data, s1⟩
      .ok (rp.1, Event.add k v :: rp.2)
    | some _ =>
      let s1 := S.onUpdate c.strat k v
      let rp := doReplace S ⟨mset c.data k v, s1⟩
      .ok (rp.1, Event.update k v :: rp.2)

/-- `doHas(key)`: look the key up; if present, notify `IsValid` with a
freshly constructed `ValidArgs` and return its resulting flag; if absent,
return `false`.  The store `_data` is never touched. -/
def doHas (c : Cache σ K V) (k : K) : Cache σ K V × List (Event K V) × Bool :=
  match mfind c.data k with
  | none => (c, [], false)
  | some _ =>
    let p := S.onIsValid c.strat k validArgsDefault
    (⟨c.data, p.1⟩, [Event.isValid k], p.2)

/-- `doGet(key)`: if absent return an empty handle without any
notification.  If present: notify `Get`, then `IsValid` with a fresh
`ValidArgs`; if the flag comes back unset, `doRemove` the entry and return
an empty handle; otherwise return the stored handle. -/
def doGet (c : Cache σ K V) (k : K) : Cache σ K V × List (Event K V) × Option V :=
  match mfind c.data k with
  | none => (c, [], none)
  | some v =>
    let s1 := S.onGet c.strat k
    let p := S.onIsValid s1 k validArgsDefault
    if p.2 then
      (⟨c.data, p.1⟩, [Event.get k, Event.isValid k], some v)
    else
      let r := doRemove S ⟨c.data, p.1⟩ k
      (r.1, [Event.get k, Event.isValid k] ++ r.2, none)

/-- `doClear()`: notify `Clear`, then empty the store unconditionally. -/
def doClear (c : Cache σ K V) : Cache σ K V × List (Event K V) :=
  (⟨[], S.onClear c.strat⟩, [Event.clear])

/-- Public `add(key, val)` (by-value overload): lock, `doAdd`. -/
def add (c : Cache σ K V) (k : K) (v : V) : Cache σ K V × List (Event K V) :=
  doAdd S c k v

/-- Public `add(key, val)` (handle overload): lock, `doAdd`. -/
def addPtr (c : Cache σ K V) (k : K) (val : Option V) :
    Except (CacheError × Cache σ K V × List (Event K V)) (Cache σ K V × List (Event K V)) :=
  doAddPtr S c k val

/-- Public `update(key, val)` (by-value overload): lock, `doUpdate`. -/
def update (c : Cache σ K V) (k : K) (v : V) : Cache σ K V × List (Event K V) :=
  doUpdate S c k v

/-- Public `update(key, val)` (handle overload): lock, `doUpdate`. -/
def updatePtr (c : Cache σ K V) (k : K) (val : Option V) :
    Except (CacheError × Cache σ K V × List (Event K V)) (Cache σ K V × List (Event K V)) :=
  doUpdatePtr S c k val

/-- Public `remove(key)`: lock, find the key, `doRemove` the iterator. -/
def remove (c : Cache σ K V) (k : K) : Cache σ K V × List (Event K V) :=
  doRemove S c k

/-- Public `has(key)`: lock, `doHas`.  (The strategy state can change
through `onIsValid`, so the possibly updated cache is returned too.) -/
def has (c : Cache σ K V) (k : K) : Cache σ K V × List (Event K V) × Bool :=
  doHas S c k

/-- Public `get(key)`: lock, `doGet`. -/
def get (c : Cache σ K V) (k : K) : Cache σ K V × List (Event K V) × Option V :=
  doGet S c k

/-- Public `clear()`: lock, `doClear`. -/
def clear (c : Cache σ K V) : Cache σ K V × List (Event K V) :=
  doClear S c

/-- Public `size()`: lock, run a replacement pass, return `_data.size()`. -/
def size (c : Cache σ K V) : Cache σ K V × List (Event K V) × Nat :=
  let r := doReplace S c
  (r.1, r.2, r.1.data.length)

/-- Public `forceReplace()`: lock, run a replacement pass. -/
def forceReplace (c : Cache σ K V) : Cache σ K V × List (Event K V) :=
  doReplace S c

/-- Public `getAllKeys()`: lock, run a replacement pass, then snapshot every
key in iteration order. -/
def getAllKeys (c : Cache σ K V) : Cache σ K V × List (Event K V) × List K :=
  let r := doReplace S c
  (r.1, r.2, r.1.data.map Prod.fst)

end Ops

section Lemmas

variable [DecidableEq K] (S : Strategy σ K V)

theorem mfind_merase_self (d : List (K × V)) (k : K) : mfind (merase d k) k = none := by
  induction d with
  | nil => rfl
  | cons p rest ih =>
    obtain ⟨k1, v⟩ := p
    by_cases h : k1 = k
    · simpa [merase, h] using ih
    · simpa [merase, mfind, h] using ih

theorem mfind_merase_ne (d : List (K × V)) (k k1 : K) (h : k1 ≠ k) :
    mfind (merase d k) k1 = mfind d k1 := by
  induction d with
  | nil => rfl
  | cons p rest ih =>
    obtain ⟨k2, v⟩ := p
    by_cases h2 : k2 = k
    · subst h2
      simpa [merase, mfind, Ne.symm h] using ih
    · by_cases h3 : k2 = k1 <;> simp [merase, mfind, h2, h3, h, ih]

theorem merase_eq_filter (d : List (K × V)) (k : K) :
    merase d k = d.filter (fun p => decide (p.1 ≠ k)) := by
  induction d with
  | nil => rfl
  | cons p rest ih =>
    obtain ⟨k1, v⟩ := p
    by_cases h : k1 = k <;> simp [merase, h, ih, List.filter]

theorem mfind_mset_self (d : List (K × V)) (k : K) (v v0 : V)
    (h : mfind d k = some v0) : mfind (mset d k v) k = some v := by
  induction d with
  | nil => simp [mfind] at h
  | cons p rest ih =>
    obtain ⟨k1, v1⟩ := p
    by_cases h1 : k1 = k
    · simp [mset, mfind, h1]
    · simp only [mfind, if_neg h1] at h
      simpa [mset, mfind, h1] using ih h

theorem merase_of_missing (d : List (K × V)) (k : K) (h : mfind d k = none) :
    merase d k = d := by
  induction d with
  | nil => rfl
  | cons p rest ih =>
    obtain ⟨k1, v⟩ := p
    by_cases h1 : k1 = k
    · simp [mfind, h1] at h
    · simp only [mfind, if_neg h1] at h
      simp [merase, h1, ih h]

theorem doRemove_data (c : Cache σ K V) (k : K) :
    (doRemove S c k).1.data = merase c.data k := by
  unfold doRemove
  cases h : mfind c.data k with
  | none => simp [merase_of_missing c.data k h]
  | some v => rfl

theorem doRemove_of_found (c : Cache σ K V) (k : K) (v : V) (h : mfind c.data k = some v) :
    doRemove S c k = (⟨merase c.data k, S.onRemove c.strat k⟩, [Event.remove k]) := by
  unfold doRemove
  rw [h]

theorem doRemove_of_missing (c : Cache σ K V) (k : K) (h : mfind c.data k = none) :
    doRemove S c k = (c, []) := by
  unfold doRemove
  rw [h]

theorem doRemove_trace_mem (c : Cache σ K V) (k : K) :
    ∀ e ∈ (doRemove S c k).2, e = Event.remove k := by
  unfold doRemove
  cases h : mfind c.data k <;> simp

theorem removeAll_data (c : Cache σ K V) (ks : List K) :
    (removeAll S c ks).1.data = c.data.filter (fun p => decide (p.1 ∉ ks)) := by
  induction ks generalizing c with
  | nil => simp [removeAll]
  | cons k ks ih =>
    rw [removeAll, ih, doRemove_data, merase_eq_filter, List.filter_filter]
    apply List.filter_congr
    intro p _
    by_cases h1 : p.1 = k <;> by_cases h2 : p.1 ∈ ks <;> simp [h1, h2]

theorem removeAll_trace_mem (c : Cache σ K V) (ks : List K) :
    ∀ e ∈ (removeAll S c ks).2, ∃ k, k ∈ ks ∧ e = Event.remove k := by
  induction ks generalizing c with
  | nil => simp [removeAll]
  | cons k ks ih =>
    intro e he
    rw [removeAll] at he
    simp only [List.mem_append] at he
    rcases he with he | he
    · exact ⟨k, by simp, doRemove_trace_mem S c k e he⟩
    · obtain ⟨k1, hk1, he1⟩ := ih _ e he
      exact ⟨k1, by simp [hk1], he1⟩

theorem removeAll_trace_nodup (c : Cache σ K V) (ks : List K) (h : ks.Nodup) :
    (removeAll S c ks).2 =
      (ks.filter (fun k => (mfind c.data k).isSome)).map Event.remove := by
  induction ks generalizing c with
  | nil => simp [removeAll]
  | cons k ks ih =>
    rw [List.nodup_cons] at h
    rw [removeAll]
    cases hf : mfind c.data k with
    | none =>
      rw [doRemove_of_missing S c k hf]
      simp only [List.nil_append]
      rw [ih c h.2, List.filter_cons]
      simp [hf]
    | some v =>
      rw [doRemove_of_found S c k v hf]
      rw [ih _ h.2, List.filter_cons]
      simp only [hf, Option.isSome_some, if_pos]
      have : ks.filter (fun k1 =>
          (mfind (⟨merase c.data k, S.onRemove c.strat k⟩ : Cache σ K V).data k1).isSome) =
          ks.filter (fun k1 => (mfind c.data k1).isSome) := by
        apply List.filter_congr
        intro k1 hk1
        have hne : k1 ≠ k := fun hEq => h.1 (hEq ▸ hk1)
        rw [mfind_merase_ne c.data k k1 hne]
      rw [this]
      simp

theorem doReplace_trace_head (c : Cache σ K V) :
    ∃ t, (doReplace S c).2 = Event.replace :: t ∧
      ∀ e ∈ t, ∃ k, e = Event.remove k := by
  refine ⟨(removeAll S ⟨c.data, (S.onReplace c.strat).1⟩ (S.onReplace c.strat).2).2, rfl, ?_⟩
  intro e he
  obtain ⟨k, _, he1⟩ := removeAll_trace_mem S _ _ e he
  exact ⟨k, he1⟩

theorem doReplace_replace_count (c : Cache σ K V) :
    (doReplace S c).2.countP Event.isReplace = 1 := by
  obtain ⟨t, ht, hmem⟩ := doReplace_trace_head S c
  rw [ht, List.countP_cons]
  have : t.countP Event.isReplace = 0 := by
    rw [List.countP_eq_zero]
    intro e he
    obtain ⟨k, hk⟩ := hmem e he
    subst hk
    simp [Event.isReplace]
  simp [this, Event.isReplace]

theorem doReplace_no_add (c : Cache σ K V) :
    (doReplace S c).2.countP Event.isAddEv = 0 := by
  obtain ⟨t, ht, hmem⟩ := doReplace_trace_head S c
  rw [ht, List.countP_cons, List.countP_eq_zero.2]
  · simp [Event.isAddEv]
  · intro e he
    obtain ⟨k, hk⟩ := hmem e he
    subst hk
    simp [Event.isAddEv]

theorem doReplace_no_update (c : Cache σ K V) :
    (doReplace S c).2.countP Event.isUpdateEv = 0 := by
  obtain ⟨t, ht, hmem⟩ := doReplace_trace_head S c
  rw [ht, List.countP_cons, List.countP_eq_zero.2]
  · simp [Event.isUpdateEv]
  · intro e he
    obtain ⟨k, hk⟩ := hmem e he
    subst hk
    simp [Event.isUpdateEv]

theorem doReplace_data_of_empty (c : Cache σ K V) (h : c.data = []) :
    (doReplace S c).1.data = [] := by
  unfold doReplace
  rw [removeAll_data]
  simp [h]

end Lemmas

/-- A strategy over trivial state that records nothing, never invalidates
beyond the flag it is handed (it "gives no answer" to validity checks) and
never asks for evictions. -/
def noopStrategy : Strategy Unit Nat Nat where
  onAdd := fun s _ _ => s
  onUpdate := fun s _ _ => s
  onRemove := fun s _ => s
  onGet := fun s _ => s
  onClear := fun s => s
  onIsValid := fun s _ b => (s, b)
  onReplace := fun s => (s, [])

/-- A strategy that answers every validity check with `true`. -/
def alwaysValidStrategy : Strategy Unit Nat Nat where
  onAdd := fun s _ _ => s
  onUpdate := fun s _ _ => s
  onRemove := fun s _ => s
  onGet := fun s _ => s
  onClear := fun s => s
  onIsValid := fun s _ _ => (s, true)
  onReplace := fun s => (s, [])

/-- A strategy that answers every validity check with `false`. -/
def alwaysInvalidStrategy : Strategy Unit Nat Nat where
  onAdd := fun s _ _ => s
  onUpdate := fun s _ _ => s
  onRemove := fun s _ => s
  onGet := fun s _ => s
  onClear := fun s => s
  onIsValid := fun s _ _ => (s, false)
  onReplace := fun s => (s, [])

/-- A strategy that requests the eviction of key `2` on every replacement
pass and answers validity checks with `true`. -/
def evictTwoStrategy : Strategy Unit Nat Nat where
  onAdd := fun s _ _ => s
  onUpdate := fun s _ _ => s
  onRemove := fun s _ => s
  onGet := fun s _ => s
  onClear := fun s => s
  onIsValid := fun s _ _ => (s, true)
  onReplace := fun s => (s, [2])

section Claims

variable {K V σ : Type}

/-- Claim C1, counterexample: with a key already present, `add` with a null
value handle does NOT leave the store unchanged and does deliver a Remove
event before failing — the `doRemove` of the pre-existing entry runs before
the handle is dereferenced.  Concretely, on the cache holding `(1, 5)`,
`addPtr` of a null handle at key `1` fails with the store already emptied
and `Remove 1` already notified. -/
theorem claim1_counterexample :
    addPtr noopStrategy ⟨[(1, 5)], ()⟩ 1 none =
      .error (.invalidValue, ⟨[], ()⟩, [Event.remove 1]) ∧
    (⟨[], ()⟩ : Cache Unit Nat Nat).data ≠ [(1, 5)] ∧
    ([Event.remove 1] : List (Event Nat Nat)) ≠ [] :=
  ⟨rfl, by decide, by decide⟩

/-- Claim C1, amended: `update` with a null value handle is rejected with
`InvalidValue` before any mutation or notification; `add` with a null value
handle is rejected before any Add event or insertion, but only after the
internal removal of a pre-existing entry for the key, so when the key is
present the store has already lost that entry and a Remove event has already
been delivered; when the key is absent, `add` too is rejected with the store
unchanged and no event delivered. -/
theorem claim1_amended [DecidableEq K] (S : Strategy σ K V) (c : Cache σ K V) (k : K) :
    updatePtr S c k none = .error (.invalidValue, c, []) ∧
    addPtr S c k none = .error (.invalidValue, (doRemove S c k).1, (doRemove S c k).2) ∧
    (mfind c.data k = none → addPtr S c k none = .error (.invalidValue, c, [])) := by
  refine ⟨rfl, rfl, fun h => ?_⟩
  simp [addPtr, doAddPtr, doRemove_of_missing S c k h]

/-- Witness for the amended claim C1 at a concrete input: on the empty
cache, `add` of a null handle at key `0` is rejected with the store
unchanged and no event. -/
theorem claim1_amended_witness :
    mfind ((⟨[], ()⟩ : Cache Unit Nat Nat)).data 0 = none ∧
    addPtr noopStrategy ⟨[], ()⟩ 0 none = .error (.invalidValue, ⟨[], ()⟩, []) :=
  ⟨rfl, (claim1_amended noopStrategy ⟨[], ()⟩ 0).2.2 rfl⟩

/-- Claim C9: `remove` on a present key erases the entry and emits exactly
one Remove event; on an absent key it is a silent no-op, emitting no event
and leaving the cache unchanged. -/
theorem claim9 [DecidableEq K] (S : Strategy σ K V) (c : Cache σ K V) (k : K) :
    (∀ v, mfind c.data k = some v →
      remove S c k = (⟨merase c.data k, S.onRemove c.strat k⟩, [Event.remove k])) ∧
    (mfind c.data k = none → remove S c k = (c, [])) :=
  ⟨fun v h => doRemove_of_found S c k v h, fun h => doRemove_of_missing S c k h⟩

/-- Witness for claim C9 at concrete inputs: removing key `1` from the cache
holding `(1, 5)` erases it and emits `Remove 1`; removing the absent key `2`
changes nothing and emits nothing. -/
theorem claim9_witness :
    (mfind ((⟨[(1, 5)], ()⟩ : Cache Unit Nat Nat)).data 1 = some 5 ∧
      remove noopStrategy ⟨[(1, 5)], ()⟩ 1 = (⟨[], ()⟩, [Event.remove 1])) ∧
    (mfind ((⟨[(1, 5)], ()⟩ : Cache Unit Nat Nat)).data 2 = none ∧
      remove noopStrategy ⟨[(1, 5)], ()⟩ 2 = (⟨[(1, 5)], ()⟩, [])) :=
  ⟨⟨rfl, (claim9 noopStrategy ⟨[(1, 5)], ()⟩ 1).1 5 rfl⟩,
    ⟨rfl, (claim9 noopStrategy ⟨[(1, 5)], ()⟩ 2).2 rfl⟩⟩

/-- Claim C10: `get` on an absent key fires no notification at all (no Get,
no IsValid, no Remove), leaves the cache — store and strategy state —
untouched, and returns the empty handle. -/
theorem claim10 [DecidableEq K] (S : Strategy σ K V) (c : Cache σ K V) (k : K)
    (h : mfind c.data k = none) :
    get S c k = (c, [], none) := by
  unfold get doGet
  rw [h]

/-- Witness for claim C10: on the empty cache, `get 0` returns the empty
handle with an empty trace and the cache unchanged. -/
theorem claim10_witness :
    mfind ((⟨[], ()⟩ : Cache Unit Nat Nat)).data 0 = none ∧
    get noopStrategy ⟨[], ()⟩ 0 = (⟨[], ()⟩, [], none) :=
  ⟨rfl, claim10 noopStrategy ⟨[], ()⟩ 0 rfl⟩

/-- Claim C2: when the strategy leaves the validity flag exactly as it was
handed to it ("gives no answer"), a present key is treated as invalid: `has`
returns `false`, and `get` returns the empty handle and evicts the entry.
(The flag's initial value is `validArgsDefault`, modelled from the spec as
`false`.) -/
theorem claim2 [DecidableEq K] (S : Strategy σ K V) (c : Cache σ K V) (k : K) (v : V)
    (hpres : mfind c.data k = some v)
    (hno : ∀ s b, (S.onIsValid s k b).2 = b) :
    (has S c k).2.2 = false ∧
    (get S c k).2.2 = none ∧
    mfind (get S c k).1.data k = none := by
  have hd : validArgsDefault = false := rfl
  refine ⟨?_, ?_, ?_⟩
  · simp [has, doHas, hpres, hno, hd]
  · simp [get, doGet, hpres, hno, hd]
  · simp [get, doGet, hpres, hno, hd, doRemove_data, mfind_merase_self]

/-- Witness for claim C2: the no-answer strategy over the cache holding
`(1, 5)` — `has 1` is `false`, `get 1` is empty and evicts the entry. -/
theorem claim2_witness :
    mfind ((⟨[(1, 5)], ()⟩ : Cache Unit Nat Nat)).data 1 = some 5 ∧
    ((has noopStrategy ⟨[(1, 5)], ()⟩ 1).2.2 = false ∧
      (get noopStrategy ⟨[(1, 5)], ()⟩ 1).2.2 = none ∧
      mfind (get noopStrategy ⟨[(1, 5)], ()⟩ 1).1.data 1 = none) :=
  ⟨rfl, claim2 noopStrategy ⟨[(1, 5)], ()⟩ 1 5 rfl (fun _ _ => rfl)⟩

/-- Claim C7: `has` returns `true` exactly when the key is present in the
store and the strategy's validity check (posed with a freshly constructed
flag) answers `true`; in every case the store contents are left unchanged. -/
theorem claim7 [DecidableEq K] (S : Strategy σ K V) (c : Cache σ K V) (k : K) :
    ((has S c k).2.2 = true ↔
      (mfind c.data k).isSome = true ∧
        (S.onIsValid c.strat k validArgsDefault).2 = true) ∧
    (has S c k).1.data = c.data := by
  cases h : mfind c.data k with
  | none => simp [has, doHas, h]
  | some v => simp [has, doHas, h]

/-- Claim C8: `clear` emits exactly one Clear event and then empties the
store; afterwards `size` reports `0` and `getAllKeys` returns the empty
snapshot, whatever the prior contents and strategy. -/
theorem claim8 [DecidableEq K] (S : Strategy σ K V) (c : Cache σ K V) :
    clear S c = (⟨[], S.onClear c.strat⟩, [Event.clear]) ∧
    (size S (clear S c).1).2.2 = 0 ∧
    (getAllKeys S (clear S c).1).2.2 = [] := by
  have h := doReplace_data_of_empty S (⟨[], S.onClear c.strat⟩ : Cache σ K V) rfl
  refine ⟨rfl, ?_, ?_⟩
  · simp [size, clear, doClear, h]
  · simp [getAllKeys, clear, doClear, h]

/-- Claim C3: `add` on a present key first emits `Remove k`, then emits
`Add k v`, and runs exactly one replacement pass on the store obtained by
erasing the old entry and inserting the new one; no Update event ever
appears in the trace. -/
theorem claim3 [DecidableEq K] (S : Strategy σ K V) (c : Cache σ K V) (k : K) (v v0 : V)
    (h : mfind c.data k = some v0) :
    add S c k v =
      ((doReplace S ⟨(k, v) :: merase c.data k, S.onAdd (S.onRemove c.strat k) k v⟩).1,
        Event.remove k :: Event.add k v ::
          (doReplace S ⟨(k, v) :: merase c.data k, S.onAdd (S.onRemove c.strat k) k v⟩).2) ∧
    (add S c k v).2.countP Event.isReplace = 1 ∧
    (add S c k v).2.countP Event.isUpdateEv = 0 := by
  have hEq : add S c k v =
      ((doReplace S ⟨(k, v) :: merase c.data k, S.onAdd (S.onRemove c.strat k) k v⟩).1,
        Event.remove k :: Event.add k v ::
          (doReplace S ⟨(k, v) :: merase c.data k, S.onAdd (S.onRemove c.strat k) k v⟩).2) := by
    simp [add, doAdd, doRemove_of_found S c k v0 h]
  refine ⟨hEq, ?_, ?_⟩
  · rw [hEq]
    simp only [List.countP_cons]
    rw [doReplace_replace_count]
    simp [Event.isReplace]
  · rw [hEq]
    simp only [List.countP_cons]
    rw [doReplace_no_update]
    simp [Event.isUpdateEv]

/-- Witness for claim C3: adding `(1, 7)` over the cache holding `(1, 5)`
yields the trace `Remove 1, Add 1 7, Replace` with one replacement pass and
no Update event. -/
theorem claim3_witness :
    mfind ((⟨[(1, 5)], ()⟩ : Cache Unit Nat Nat)).data 1 = some 5 ∧
    (add noopStrategy ⟨[(1, 5)], ()⟩ 1 7 =
      ((doReplace noopStrategy ⟨[(1, 7)], ()⟩).1,
        Event.remove 1 :: Event.add 1 7 :: (doReplace noopStrategy ⟨[(1, 7)], ()⟩).2) ∧
      (add noopStrategy ⟨[(1, 5)], ()⟩ 1 7).2.countP Event.isReplace = 1 ∧
      (add noopStrategy ⟨[(1, 5)], ()⟩ 1 7).2.countP Event.isUpdateEv = 0) :=
  ⟨rfl, claim3 noopStrategy ⟨[(1, 5)], ()⟩ 1 7 5 rfl⟩

/-- Claim C4: `update` on a present key emits exactly one Update event, no
Add event, replaces the stored value in place, and runs exactly one
replacement pass; `update` on an absent key is literally `add`: one Add
event, no Update event. -/
theorem claim4 [DecidableEq K] (S : Strategy σ K V) (c : Cache σ K V) (k : K) (v : V) :
    (∀ v0, mfind c.data k = some v0 →
      update S c k v =
        ((doReplace S ⟨mset c.data k v, S.onUpdate c.strat k v⟩).1,
          Event.update k v :: (doReplace S ⟨mset c.data k v, S.onUpdate c.strat k v⟩).2) ∧
      mfind (mset c.data k v) k = some v ∧
      (update S c k v).2.countP Event.isUpdateEv = 1 ∧
      (update S c k v).2.countP Event.isAddEv = 0 ∧
      (update S c k v).2.countP Event.isReplace = 1) ∧
    (mfind c.data k = none →
      update S c k v = add S c k v ∧
      (update S c k v).2.countP Event.isAddEv = 1 ∧
      (update S c k v).2.countP Event.isUpdateEv = 0) := by
  constructor
  · intro v0 h
    have hEq : update S c k v =
        ((doReplace S ⟨mset c.data k v, S.onUpdate c.strat k v⟩).1,
          Event.update k v :: (doReplace S ⟨mset c.data k v, S.onUpdate c.strat k v⟩).2) := by
      simp [update, doUpdate, h]
    refine ⟨hEq, mfind_mset_self c.data k v v0 h, ?_, ?_, ?_⟩
    · rw [hEq]
      simp only [List.countP_cons]
      rw [doReplace_no_update]
      simp [Event.isUpdateEv]
    · rw [hEq]
      simp only [List.countP_cons]
      rw [doReplace_no_add]
      simp [Event.isAddEv]
    · rw [hEq]
      simp only [List.countP_cons]
      rw [doReplace_replace_count]
      simp [Event.isReplace]
  · intro h
    have hEq : update S c k v =
        ((doReplace S ⟨(k, v) :: c.data, S.onAdd c.strat k v⟩).1,
          Event.add k v :: (doReplace S ⟨(k, v) :: c.data, S.onAdd c.strat k v⟩).2) := by
      simp [update, doUpdate, h]
    refine ⟨?_, ?_, ?_⟩
    · rw [hEq]
      simp [add, doAdd, doRemove_of_missing S c k h]
    · rw [hEq]
      simp only [List.countP_cons]
      rw [doReplace_no_add]
      simp [Event.isAddEv]
    · rw [hEq]
      simp only [List.countP_cons]
      rw [doReplace_no_update]
      simp [Event.isUpdateEv]

/-- Witness for claim C4 at concrete inputs: updating key `1` on the cache
holding `(1, 5)` emits one Update and no Add; updating key `1` on the empty
cache is exactly `add` and emits one Add and no Update. -/
theorem claim4_witness :
    (update noopStrategy ⟨[(1, 5)], ()⟩ 1 7 =
        ((doReplace noopStrategy ⟨[(1, 7)], ()⟩).1,
          Event.update 1 7 :: (doReplace noopStrategy ⟨[(1, 7)], ()⟩).2) ∧
      mfind (mset ([(1, 5)] : List (Nat × Nat)) 1 7) 1 = some 7 ∧
      (update noopStrategy ⟨[(1, 5)], ()⟩ 1 7).2.countP Event.isUpdateEv = 1 ∧
      (update noopStrategy ⟨[(1, 5)], ()⟩ 1 7).2.countP Event.isAddEv = 0 ∧
      (update noopStrategy ⟨[(1, 5)], ()⟩ 1 7).2.countP Event.isReplace = 1) ∧
    (update noopStrategy ⟨[], ()⟩ 1 7 = add noopStrategy ⟨[], ()⟩ 1 7 ∧
      (update noopStrategy ⟨[], ()⟩ 1 7).2.countP Event.isAddEv = 1 ∧
      (update noopStrategy ⟨[], ()⟩ 1 7).2.countP Event.isUpdateEv = 0) :=
  ⟨(claim4 noopStrategy ⟨[(1, 5)], ()⟩ 1 7).1 5 rfl,
    (claim4 noopStrategy ⟨[], ()⟩ 1 7).2 rfl⟩

/-- Claim C5: `get` on an absent key returns the empty handle; on a present
key it emits Get then poses the validity check; when the strategy answers
`false` the entry is evicted with a Remove event, the empty handle is
returned and a subsequent `has` of the key is `false`; when it answers
`true` the stored handle is returned. -/
theorem claim5 [DecidableEq K] (S : Strategy σ K V) (c : Cache σ K V) (k : K) :
    (mfind c.data k = none → (get S c k).2.2 = none) ∧
    (∀ v, mfind c.data k = some v →
      (S.onIsValid (S.onGet c.strat k) k validArgsDefault).2 = false →
      get S c k =
        (⟨merase c.data k,
            S.onRemove (S.onIsValid (S.onGet c.strat k) k validArgsDefault).1 k⟩,
          [Event.get k, Event.isValid k, Event.remove k], none) ∧
      (has S (get S c k).1 k).2.2 = false) ∧
    (∀ v, mfind c.data k = some v →
      (S.onIsValid (S.onGet c.strat k) k validArgsDefault).2 = true →
      get S c k =
        (⟨c.data, (S.onIsValid (S.onGet c.strat k) k validArgsDefault).1⟩,
          [Event.get k, Event.isValid k], some v)) := by
  refine ⟨fun h => ?_, fun v h hval => ?_, fun v h hval => ?_⟩
  · simp [get, doGet, h]
  · have hEq : get S c k =
        (⟨merase c.data k,
            S.onRemove (S.onIsValid (S.onGet c.strat k) k validArgsDefault).1 k⟩,
          [Event.get k, Event.isValid k, Event.remove k], none) := by
      simp [get, doGet, h, hval, doRemove, mfind]
    refine ⟨hEq, ?_⟩
    rw [hEq]
    simp [has, doHas, mfind_merase_self]
  · simp [get, doGet, h, hval]

/-- Witness for claim C5 at concrete inputs: `get` of the absent key `0`;
`get 1` under the always-invalid strategy (evicts, returns empty, `has`
afterwards is `false`); `get 1` under the always-valid strategy (returns the
stored handle `5`). -/
theorem claim5_witness :
    (get noopStrategy ⟨[], ()⟩ 0).2.2 = none ∧
    (get alwaysInvalidStrategy ⟨[(1, 5)], ()⟩ 1 =
        (⟨[], ()⟩, [Event.get 1, Event.isValid 1, Event.remove 1], none) ∧
      (has alwaysInvalidStrategy (get alwaysInvalidStrategy ⟨[(1, 5)], ()⟩ 1).1 1).2.2 =
        false) ∧
    get alwaysValidStrategy ⟨[(1, 5)], ()⟩ 1 =
      (⟨[(1, 5)], ()⟩, [Event.get 1, Event.isValid 1], some 5) :=
  ⟨(claim5 noopStrategy ⟨[], ()⟩ 0).1 rfl,
    (claim5 alwaysInvalidStrategy ⟨[(1, 5)], ()⟩ 1).2.1 5 rfl rfl,
    (claim5 alwaysValidStrategy ⟨[(1, 5)], ()⟩ 1).2.2 5 rfl rfl⟩

/-- Claim C6: a replacement pass keeps exactly the entries whose key is not
in the set returned by the strategy, and its trace is one Replace
notification followed by one Remove event per returned key that was present
in the store; with an empty returned set the store is unchanged.  (The
returned key list stands for a `std::set`, hence the no-duplicates
hypothesis.) -/
theorem claim6 [DecidableEq K] (S : Strategy σ K V) (c : Cache σ K V)
    (h : (S.onReplace c.strat).2.Nodup) :
    (forceReplace S c).1.data =
      c.data.filter (fun p => decide (p.1 ∉ (S.onReplace c.strat).2)) ∧
    (forceReplace S c).2 =
      Event.replace ::
        ((S.onReplace c.strat).2.filter
            (fun k => (mfind c.data k).isSome)).map Event.remove ∧
    ((S.onReplace c.strat).2 = [] → (forceReplace S c).1.data = c.data) := by
  have hdata : (forceReplace S c).1.data =
      c.data.filter (fun p => decide (p.1 ∉ (S.onReplace c.strat).2)) := by
    show (doReplace S c).1.data = _
    unfold doReplace
    rw [removeAll_data]
  refine ⟨hdata, ?_, fun h0 => ?_⟩
  · show (doReplace S c).2 = _
    simp only [doReplace]
    rw [removeAll_trace_nodup S _ _ h]
  · rw [hdata, h0]
    simp

/-- Witness for claim C6: the strategy evicting key `2` on every pass, over
the cache holding `(1, 5)` and `(2, 6)` — the pass keeps `(1, 5)`, emits
`Replace` then `Remove 2`, and (vacuously) the empty-set clause. -/
theorem claim6_witness :
    ((evictTwoStrategy.onReplace ()).2.Nodup ∧
      (forceReplace evictTwoStrategy ⟨[(1, 5), (2, 6)], ()⟩).1.data = [(1, 5)]) ∧
    (forceReplace evictTwoStrategy ⟨[(1, 5), (2, 6)], ()⟩).2 =
      [Event.replace, Event.remove 2] ∧
    (((evictTwoStrategy.onReplace ()).2 : List Nat) = [] →
      (forceReplace evictTwoStrategy ⟨[(1, 5), (2, 6)], ()⟩).1.data = [(1, 5), (2, 6)]) := by
  have h := claim6 evictTwoStrategy ⟨[(1, 5), (2, 6)], ()⟩ (by decide)
  exact ⟨⟨by decide, h.1⟩, h.2.1, h.2.2⟩

end Claims

end OfxCache
